import Mathlib

/-!
# Verification of `update_fingerprints.py`

A shallow embedding of the fingerprint-cache script of the
Axelrod-fingerprint repository, together with proofs of the spec's
claims about it.

Python strings are modelled as `List Char`, byte strings as `List Nat`
(each entry < 256).  The file system is modelled explicitly: the cache
file `db.csv` is a `List Char` (its content), a possibly-missing file is
an `Option (List Char)`.  Calls into the external simulation library
(`obtain_transitive_fingerprint`, ...) are recorded as events; the
commented-out `obtain_fingerprint` call never produces an event.
Python exceptions are modelled with `Option`/`Except` results.
-/

namespace UpdateFingerprints

/-! ## `hashlib.md5` and `str.encode("utf-8")`

`hash_strategy` calls `hashlib.md5(source_code.encode('utf-8')).hexdigest()`.
The library functions are embedded by their specification: UTF-8 encoding
and the MD5 algorithm of RFC 1321 (validated against the standard test
digests). -/

/-- UTF-8 encoding of a single character, as produced by `str.encode("utf-8")`. -/
def utf8Char (c : Char) : List Nat :=
  let n := c.toNat
  if n < 0x80 then [n]
  else if n < 0x800 then [0xC0 + n / 0x40, 0x80 + n % 0x40]
  else if n < 0x10000 then
    [0xE0 + n / 0x1000, 0x80 + (n / 0x40) % 0x40, 0x80 + n % 0x40]
  else
    [0xF0 + n / 0x40000, 0x80 + (n / 0x1000) % 0x40, 0x80 + (n / 0x40) % 0x40,
     0x80 + n % 0x40]

/-- UTF-8 encoding of a string. -/
def utf8 (s : List Char) : List Nat := s.flatMap utf8Char

/-- 2^32, the modulus of 32-bit arithmetic in MD5. -/
def M32 : Nat := 4294967296

/-- Left-rotation of a 32-bit word. -/
def rotl32 (x s : Nat) : Nat := ((x <<< s) ||| (x >>> (32 - s))) % M32

/-- The 64 MD5 sine-derived constants (RFC 1321, table T). -/
def mdK : List Nat :=
  [0xd76aa478, 0xe8c7b756, 0x242070db, 0xc1bdceee,
   0xf57c0faf, 0x4787c62a, 0xa8304613, 0xfd469501,
   0x698098d8, 0x8b44f7af, 0xffff5bb1, 0x895cd7be,
   0x6b901122, 0xfd987193, 0xa679438e, 0x49b40821,
   0xf61e2562, 0xc040b340, 0x265e5a51, 0xe9b6c7aa,
   0xd62f105d, 0x02441453, 0xd8a1e681, 0xe7d3fbc8,
   0x21e1cde6, 0xc33707d6, 0xf4d50d87, 0x455a14ed,
   0xa9e3e905, 0xfcefa3f8, 0x676f02d9, 0x8d2a4c8a,
   0xfffa3942, 0x8771f681, 0x6d9d6122, 0xfde5380c,
   0xa4beea44, 0x4bdecfa9, 0xf6bb4b60, 0xbebfbc70,
   0x289b7ec6, 0xeaa127fa, 0xd4ef3085, 0x04881d05,
   0xd9d4d039, 0xe6db99e5, 0x1fa27cf8, 0xc4ac5665,
   0xf4292244, 0x432aff97, 0xab9423a7, 0xfc93a039,
   0x655b59c3, 0x8f0ccc92, 0xffeff47d, 0x85845dd1,
   0x6fa87e4f, 0xfe2ce6e0, 0xa3014314, 0x4e0811a1,
   0xf7537e82, 0xbd3af235, 0x2ad7d2bb, 0xeb86d391]

/-- The MD5 per-round left-rotation amounts. -/
def mdS : List Nat :=
  [7, 12, 17, 22, 7, 12, 17, 22, 7, 12, 17, 22, 7, 12, 17, 22,
   5, 9, 14, 20, 5, 9, 14, 20, 5, 9, 14, 20, 5, 9, 14, 20,
   4, 11, 16, 23, 4, 11, 16, 23, 4, 11, 16, 23, 4, 11, 16, 23,
   6, 10, 15, 21, 6, 10, 15, 21, 6, 10, 15, 21, 6, 10, 15, 21]

/-- The MD5 nonlinear function for round `i`. -/
def mdF (i b c d : Nat) : Nat :=
  if i < 16 then (b &&& c) ||| ((b ^^^ 0xFFFFFFFF) &&& d)
  else if i < 32 then (d &&& b) ||| ((d ^^^ 0xFFFFFFFF) &&& c)
  else if i < 48 then b ^^^ c ^^^ d
  else c ^^^ (b ||| (d ^^^ 0xFFFFFFFF))

/-- The MD5 message-word index for round `i`. -/
def mdG (i : Nat) : Nat :=
  if i < 16 then i
  else if i < 32 then (5 * i + 1) % 16
  else if i < 48 then (3 * i + 5) % 16
  else (7 * i) % 16

/-- One MD5 round on state `(a, b, c, d)` with message words `m`. -/
def mdRound (m : List Nat) (st : Nat × Nat × Nat × Nat) (i : Nat) :
    Nat × Nat × Nat × Nat :=
  let (a, b, c, d) := st
  let f := (mdF i b c d + a + mdK.getD i 0 + m.getD (mdG i) 0) % M32
  (d, (b + rotl32 f (mdS.getD i 0)) % M32, b, c)

/-- The MD5 compression function applied to one 16-word block. -/
def mdCompress (st : Nat × Nat × Nat × Nat) (m : List Nat) :
    Nat × Nat × Nat × Nat :=
  let (a0, b0, c0, d0) := st
  let (a, b, c, d) := (List.range 64).foldl (mdRound m) st
  ((a + a0) % M32, (b + b0) % M32, (c + c0) % M32, (d + d0) % M32)

/-- MD5 padding: a `0x80` byte, zero bytes up to 56 mod 64, then the bit
length as 8 little-endian bytes. -/
def md5pad (msg : List Nat) : List Nat :=
  let len := msg.length
  let k := (120 - ((len + 1) % 64)) % 64
  msg ++ 128 :: List.replicate k 0 ++
    (List.range 8).map (fun i => (8 * len) / 256 ^ i % 256)

/-- Splitting into chunks of `n`, with the list length as structural fuel. -/
def chunksGo (n : Nat) : Nat → List α → List (List α)
  | 0, _ => []
  | _, [] => []
  | fuel + 1, l => l.take n :: chunksGo n fuel (l.drop n)

/-- Split a list into consecutive chunks of length `n`. -/
def chunks (n : Nat) (l : List α) : List (List α) := chunksGo n l.length l

/-- Little-endian 32-bit word from (up to) four bytes. -/
def wordLE (bs : List Nat) : Nat :=
  bs.getD 0 0 + 256 * bs.getD 1 0 + 65536 * bs.getD 2 0 + 16777216 * bs.getD 3 0

/-- The four little-endian bytes of a 32-bit word. -/
def bytesLE (w : Nat) : List Nat :=
  [w % 256, w / 256 % 256, w / 65536 % 256, w / 16777216 % 256]

/-- The 16-byte MD5 digest of a byte string, `hashlib.md5(bs).digest()`. -/
def md5bytes (msg : List Nat) : List Nat :=
  let blocks := (chunks 64 (md5pad msg)).map (fun blk => (chunks 4 blk).map wordLE)
  match blocks.foldl mdCompress (0x67452301, 0xefcdab89, 0x98badcfe, 0x10325476) with
  | (a, b, c, d) => bytesLE a ++ bytesLE b ++ bytesLE c ++ bytesLE d

/-- The lowercase hexadecimal alphabet. -/
def hexChars : List Char := "0123456789abcdef".data

/-- The hex character of `n % 16`. -/
def hexDigit (n : Nat) : Char := hexChars.getD (n % 16) '0'

/-- The two lowercase hex characters of one byte. -/
def byteHex (b : Nat) : List Char := [hexDigit (b / 16), hexDigit b]

/-- `hashlib.md5(s.encode("utf-8")).hexdigest()` for a string `s`. -/
def md5hex (s : List Char) : List Char := (md5bytes (utf8 s)).flatMap byteHex

/-! ## Strategies and `hash_strategy` (src/update_fingerprints.py lines 23-35) -/

/-- Outcome of `inspect.getsourcelines(strategy)` on the strategy class:
the list of source lines, or the exception the call raises
(`OSError` for dynamically created classes, `TypeError` when a player
instance of a fortran strategy is passed). -/
inductive SourceResult where
  | ok (lines : List (List Char))
  | osError
  | typeError
deriving DecidableEq

/-- The attributes of a strategy (an `axelrod` strategy class or an
`axelrod_fortran` player instance) that `update_fingerprints.py` reads. -/
structure Strategy where
  /-- The `name` attribute. -/
  name : List Char
  /-- The `original_name` attribute; `none` when the attribute is absent
  (reading it then raises `AttributeError`). -/
  original_name : Option (List Char)
  /-- The outcome of `inspect.getsourcelines(strategy)[0]`. -/
  classSource : SourceResult
  /-- The source lines of the `strategy` attribute,
  `inspect.getsourcelines(strategy.strategy)[0]`. -/
  strategyAttrSource : List (List Char)
deriving DecidableEq

/-- The `source_code` string computed by `hash_strategy` (lines 27-32):
the joined source lines of the class; on `OSError` the joined source lines
of the `strategy` attribute; on `TypeError` the string
`"".join(strategy.original_name)`, which is `original_name` itself.
`none` models an uncaught `AttributeError` for a missing `original_name`. -/
def sourceCode (strategy : Strategy) : Option (List Char) :=
  match strategy.classSource with
  | .ok lines => some lines.flatten
  | .osError => some strategy.strategyAttrSource.flatten
  | .typeError => strategy.original_name

/-- `hash_strategy` (lines 23-35): the MD5 hex digest of the UTF-8 encoded
source code. -/
def hash_strategy (strategy : Strategy) : Option (List Char) :=
  (sourceCode strategy).map md5hex

/-- The name written to the db (lines 44-47): `strategy.original_name`,
falling back to `strategy.name` on `AttributeError`. -/
def dbName (strategy : Strategy) : List Char :=
  strategy.original_name.getD strategy.name

/-- `write_strategy_to_db` (lines 38-47): append the row
`"{},{},{}\n".format(name, fingerprint, hashed_source)` to the file.
The file argument and result are the file's content. -/
def write_strategy_to_db (file : List Char) (strategy : Strategy)
    (fingerprint : List Char) : Option (List Char) :=
  (hash_strategy strategy).map fun hashed_source =>
    file ++ dbName strategy ++ ',' :: fingerprint ++ ',' :: hashed_source ++ ['\n']

/-! ## Reading the db: `csv.reader` and `read_db` (lines 50-66) -/

/-- Split a list at every occurrence of `sep` (the separator is dropped). -/
def splitOnChar (sep : Char) : List Char → List (List Char)
  | [] => [[]]
  | c :: rest =>
    match splitOnChar sep rest with
    | [] => [[]]
    | f :: fs => if c = sep then [] :: f :: fs else (c :: f) :: fs

/-- The lines an open text file yields (newline terminators stripped, as
`csv.reader` sees them): split at newlines, with no final empty line when
the content ends in a newline (or is empty). -/
def fileLines (content : List Char) : List (List Char) :=
  let parts := splitOnChar '\n' content
  if parts.getLast? = some [] then parts.dropLast else parts

/-- One `csv.reader` row of a line: a blank line yields the empty row,
any other line is split at commas.  (This models the default csv dialect
for quote-free content.) -/
def parseRow (line : List Char) : List (List Char) :=
  if line = [] then [] else splitOnChar ',' line

/-- An error raised by `read_db`: `FileNotFoundError` from `open`, or
`IndexError` from `row[0]`/`row[1]`/`row[2]` on a row with fewer than
three fields. -/
inductive ReadErr where
  | fileNotFound
  | indexError
deriving DecidableEq

/-- The in-memory db: a Python dict from `(name, fingerprint)` to hash,
represented by its entries in insertion order. -/
abbrev Db := List ((List Char × List Char) × List Char)

/-- Python dict insertion: overwrite the value of an existing key in
place, otherwise append the new entry. -/
def dbInsert : Db → List Char × List Char → List Char → Db
  | [], k, v => [(k, v)]
  | (k', v') :: rest, k, v =>
    if k' = k then (k, v) :: rest else (k', v') :: dbInsert rest k v

/-- Python dict lookup. -/
def dbLookup : Db → List Char × List Char → Option (List Char)
  | [], _ => none
  | (k', v) :: rest, k => if k' = k then some v else dbLookup rest k

/-- The dict comprehension `{(row[0], row[1]): row[2] for row in csvreader}`
(line 57): fold dict insertion over the rows, raising `IndexError` at a row
with fewer than three fields. -/
def buildDb : Db → List (List (List Char)) → Except ReadErr Db
  | d, [] => .ok d
  | d, row :: rest =>
    match row with
    | a :: b :: c :: _ => buildDb (dbInsert d (a, b) c) rest
    | _ => .error .indexError

/-- `read_db` (lines 50-58) on the content of an existing file. -/
def read_db (content : List Char) : Except ReadErr Db :=
  buildDb [] ((fileLines content).map parseRow)

/-- `read_db` on a possibly-missing file: `open` raises
`FileNotFoundError` when the file is missing. -/
def readDbFile : Option (List Char) → Except ReadErr Db
  | none => .error .fileNotFound
  | some content => read_db content

/-- `create_db` (lines 61-66): the content of the freshly created empty
file. -/
def create_db : List Char := []

/-! ## `format_filename` (lines 147-163) -/

/-- `valid_chars = "-_.() {}{}".format(string.ascii_letters, string.digits)`. -/
def valid_chars : List Char :=
  "-_.() ".data ++
  "abcdefghijklmnopqrstuvwxyzABCDEFGHIJKLMNOPQRSTUVWXYZ".data ++
  "0123456789".data

/-- `format_filename` (lines 147-163): keep only the characters of
`valid_chars`, then replace every space with an underscore
(`str.replace(' ', '_')` is character-wise since both arguments are
single characters). -/
def format_filename (s : List Char) : List Char :=
  (s.filter (fun c => decide (c ∈ valid_chars))).map
    (fun c => if c = ' ' then '_' else c)

/-! ## `main` (lines 194-292)

The markdown report is not modelled (no claim concerns it).  Calls to the
`obtain_*` functions are recorded as events; the artifact files they write
under `assets/` are determined by their arguments.  The `obtain_fingerprint`
call for the `"Ashlock"` kind (line 241 and line 272) is commented out in
the source, so no event constructor for it is ever emitted. -/

/-- A call of one of the fingerprint-computing functions, with the
strategy and the `turns` and `repetitions` arguments passed to it. -/
inductive Event where
  /-- `obtain_fingerprint` (would be emitted by line 241/272; both are
  commented out in the source). -/
  | obtainAshlock (strategy : Strategy) (turns repetitions : Nat)
  /-- `obtain_transitive_fingerprint` (lines 246, 277). -/
  | obtainTransitive (strategy : Strategy) (turns repetitions : Nat)
  /-- `obtain_transitive_fingerprint_v_short` (lines 253, 284). -/
  | obtainTransitiveVShort (strategy : Strategy) (turns repetitions : Nat)
deriving DecidableEq

/-- The mutable state of `main`: the content of `db.csv` and the list of
fingerprint computations performed so far. -/
structure MainState where
  file : List Char
  events : List Event
deriving DecidableEq

/-- The staleness test `(name, fp) not in db or db[name, fp] != signature`
(lines 240, 245, 252, 271, 276, 283). -/
def stale (db : Db) (name fp signature : List Char) : Bool :=
  match dbLookup db (name, fp) with
  | none => true
  | some h => decide (h ≠ signature)

/-- The fingerprint kind `"Ashlock"`. -/
def ashlockKind : List Char := "Ashlock".data

/-- The fingerprint kind `"Transitive"`. -/
def transitiveKind : List Char := "Transitive".data

/-- The fingerprint kind `"Transitive_v_short"`. -/
def transitiveVShortKind : List Char := "Transitive_v_short".data

/-- Lines 239-242: the `"Ashlock"` block of the strategies loop.  The
`obtain_fingerprint` call is commented out, so only the db write happens. -/
def ashlockStep (db : Db) (strategy : Strategy) (signature : List Char)
    (st : MainState) : Option MainState :=
  if stale db strategy.name ashlockKind signature then
    (write_strategy_to_db st.file strategy ashlockKind).map fun f =>
      ⟨f, st.events⟩
  else some st

/-- Lines 244-249: the `"Transitive"` block of the strategies loop. -/
def transitiveStep (db : Db) (transitive_turns transitive_repetitions : Nat)
    (strategy : Strategy) (signature : List Char) (st : MainState) :
    Option MainState :=
  if stale db strategy.name transitiveKind signature then
    (write_strategy_to_db st.file strategy transitiveKind).map fun f =>
      ⟨f, st.events ++
        [.obtainTransitive strategy transitive_turns transitive_repetitions]⟩
  else some st

/-- Lines 251-256: the `"Transitive_v_short"` block of the strategies loop. -/
def transitiveVShortStep (db : Db)
    (transitive_v_short_turns transitive_v_short_repetitions : Nat)
    (strategy : Strategy) (signature : List Char) (st : MainState) :
    Option MainState :=
  if stale db strategy.name transitiveVShortKind signature then
    (write_strategy_to_db st.file strategy transitiveVShortKind).map fun f =>
      ⟨f, st.events ++
        [.obtainTransitiveVShort strategy transitive_v_short_turns
          transitive_v_short_repetitions]⟩
  else some st

/-- Lines 236-256: the body of the loop over
`axl.short_run_time_strategies` (without the markdown append). -/
def processStrategy (db : Db)
    (transitive_turns transitive_repetitions : Nat)
    (transitive_v_short_turns transitive_v_short_repetitions : Nat)
    (st : MainState) (strategy : Strategy) : Option MainState :=
  (hash_strategy strategy).bind fun signature =>
  (ashlockStep db strategy signature st).bind fun st1 =>
  (transitiveStep db transitive_turns transitive_repetitions
      strategy signature st1).bind fun st2 =>
  transitiveVShortStep db transitive_v_short_turns
      transitive_v_short_repetitions strategy signature st2

/-- Lines 270-273: the `"Ashlock"` block of the fortran loop.  Note that
the write uses the variable `strategy` left over from the first loop, not
the current `player`. -/
def fortranAshlockStep (db : Db) (leftover : Strategy)
    (pname signature : List Char) (st : MainState) : Option MainState :=
  if stale db pname ashlockKind signature then
    (write_strategy_to_db st.file leftover ashlockKind).map fun f =>
      ⟨f, st.events⟩
  else some st

/-- Lines 275-280: the `"Transitive"` block of the fortran loop; the
obtain call and the write both use the leftover `strategy` variable. -/
def fortranTransitiveStep (db : Db)
    (transitive_turns transitive_repetitions : Nat) (leftover : Strategy)
    (pname signature : List Char) (st : MainState) : Option MainState :=
  if stale db pname transitiveKind signature then
    (write_strategy_to_db st.file leftover transitiveKind).map fun f =>
      ⟨f, st.events ++
        [.obtainTransitive leftover transitive_turns transitive_repetitions]⟩
  else some st

/-- Lines 282-287: the `"Transitive_v_short"` block of the fortran loop;
it passes `transitive_turns` and `transitive_repetitions` (not the
`transitive_v_short_*` parameters), and uses the leftover `strategy`. -/
def fortranTransitiveVShortStep (db : Db)
    (transitive_turns transitive_repetitions : Nat) (leftover : Strategy)
    (pname signature : List Char) (st : MainState) : Option MainState :=
  if stale db pname transitiveVShortKind signature then
    (write_strategy_to_db st.file leftover transitiveVShortKind).map fun f =>
      ⟨f, st.events ++
        [.obtainTransitiveVShort leftover transitive_turns
          transitive_repetitions]⟩
  else some st

/-- Lines 266-289: the body of the loop over `axlf.all_strategies`
(without the markdown append).  `name = player.original_name` raises
`AttributeError` when absent, and `signature = hash_strategy(player)`
is computed from the player; the writes and obtain calls then use the
leftover `strategy` variable of the first loop. -/
def processFortran (db : Db)
    (transitive_turns transitive_repetitions : Nat) (leftover : Strategy)
    (st : MainState) (player : Strategy) : Option MainState :=
  player.original_name.bind fun pname =>
  (hash_strategy player).bind fun signature =>
  (fortranAshlockStep db leftover pname signature st).bind fun st1 =>
  (fortranTransitiveStep db transitive_turns transitive_repetitions
      leftover pname signature st1).bind fun st2 =>
  fortranTransitiveVShortStep db transitive_turns transitive_repetitions
      leftover pname signature st2

/-- The loop over `axl.short_run_time_strategies` (lines 236-258). -/
def runLoop1 (db : Db)
    (transitive_turns transitive_repetitions : Nat)
    (transitive_v_short_turns transitive_v_short_repetitions : Nat)
    (strategies : List Strategy) (st : MainState) : Option MainState :=
  strategies.foldlM
    (processStrategy db transitive_turns transitive_repetitions
      transitive_v_short_turns transitive_v_short_repetitions) st

/-- The loop over `axlf.all_strategies` (lines 266-289). -/
def runLoop2 (db : Db)
    (transitive_turns transitive_repetitions : Nat) (leftover : Strategy)
    (players : List Strategy) (st : MainState) : Option MainState :=
  players.foldlM
    (processFortran db transitive_turns transitive_repetitions leftover) st

/-- Lines 230-234: read the db, creating an empty file first when it is
missing (only `FileNotFoundError` is caught).  Returns the dict and the
file content `main` proceeds with. -/
def mainInit (fs : Option (List Char)) : Option (Db × List Char) :=
  match fs with
  | some content =>
    match read_db content with
    | .ok db => some (db, content)
    | .error _ => none
  | none =>
    match read_db create_db with
    | .ok db => some (db, create_db)
    | .error _ => none

/-- `main` (lines 194-292), without the markdown report: initialise the
db, run the strategies loop, then run the fortran loop with the loop
variable `strategy` still bound to the last strategy of the first loop
(when the first loop ran at least once; otherwise the name `strategy` is
unbound and the fortran loop can only run if it is empty too). -/
def main (turns repetitions : Nat)
    (transitive_turns transitive_repetitions : Nat)
    (transitive_v_short_turns transitive_v_short_repetitions : Nat)
    (strategies players : List Strategy) (fs : Option (List Char)) :
    Option MainState :=
  let _ := turns
  let _ := repetitions
  (mainInit fs).bind fun init =>
  (runLoop1 init.1 transitive_turns transitive_repetitions
      transitive_v_short_turns transitive_v_short_repetitions
      strategies ⟨init.2, []⟩).bind fun st1 =>
  match strategies.getLast? with
  | some leftover => runLoop2 init.1 transitive_turns transitive_repetitions
      leftover players st1
  | none => if players = [] then some st1 else none

/-! ## Auxiliary forms used by the claims -/

/-- Join lines into a file content, terminating each with a newline. -/
def linesJoin (ls : List (List Char)) : List Char :=
  (ls.map (fun l => l ++ ['\n'])).flatten

/-- A field that the comma-separated format stores faithfully: free of
the separators and of the csv quote character. -/
def csvSafe (f : List Char) : Prop :=
  ',' ∉ f ∧ '\n' ∉ f ∧ '\r' ∉ f ∧ '"' ∉ f

instance (f : List Char) : Decidable (csvSafe f) := by
  unfold csvSafe; infer_instance

/-- Write a list of (strategy, fingerprint kind) entries to the file with
`write_strategy_to_db`, threading the file content. -/
def writeAll (file : List Char) : List (Strategy × List Char) → Option (List Char)
  | [] => some file
  | (s, fp) :: rest => (write_strategy_to_db file s fp).bind fun f => writeAll f rest

/-- The db key an entry is stored under. -/
def entryKey (e : Strategy × List Char) : List Char × List Char :=
  (dbName e.1, e.2)

/-- The key-value triple of a csv row with at least three fields. -/
def rowTriple : List (List Char) → Option ((List Char × List Char) × List Char)
  | a :: b :: c :: _ => some ((a, b), c)
  | _ => none

/-- The allowed character set named by the claims: ASCII letters, digits,
and the characters of `"-_.()"`. -/
def claimAllowedChars : List Char :=
  "abcdefghijklmnopqrstuvwxyzABCDEFGHIJKLMNOPQRSTUVWXYZ0123456789-_.()".data

/-! ## Lemmas about `format_filename` -/

lemma valid_chars_split : ∀ c ∈ valid_chars, c = ' ' ∨ c ∈ claimAllowedChars := by
  decide

lemma replaceChar_valid {c : Char} (h : c ∈ valid_chars) :
    (if c = ' ' then '_' else c) ∈ valid_chars := by
  by_cases hc : c = ' '
  · simp only [hc, if_pos rfl]; decide
  · simpa [hc] using h

lemma replaceChar_claim {c : Char} (h : c ∈ valid_chars) :
    (if c = ' ' then '_' else c) ∈ claimAllowedChars := by
  by_cases hc : c = ' '
  · simp only [hc, if_pos rfl]; decide
  · rcases valid_chars_split c h with h' | h'
    · exact absurd h' hc
    · simpa [hc] using h'

lemma replaceChar_ne_space (c : Char) : (if c = ' ' then '_' else c) = ' ' → False := by
  by_cases hc : c = ' ' <;> simp [hc]

lemma mem_format_filename {c : Char} {s : List Char}
    (h : c ∈ format_filename s) :
    ∃ a, a ∈ s ∧ a ∈ valid_chars ∧ c = if a = ' ' then '_' else a := by
  unfold format_filename at h
  obtain ⟨a, ha, rfl⟩ := List.mem_map.1 h
  have := List.mem_filter.1 ha
  exact ⟨a, this.1, of_decide_eq_true this.2, rfl⟩

lemma count_underscore_map (l : List Char) :
    (l.map (fun c => if c = ' ' then '_' else c)).count '_' =
      l.count '_' + l.count ' ' := by
  induction l with
  | nil => simp
  | cons c t ih =>
    by_cases hc : c = ' '
    · simp [hc, List.count_cons, ih]; omega
    · by_cases hu : c = '_'
      · simp [hu, List.count_cons, ih]; omega
      · simp [hc, hu, List.count_cons, ih]

lemma count_filter_valid (s : List Char) {a : Char} (ha : a ∈ valid_chars) :
    (s.filter (fun c => decide (c ∈ valid_chars))).count a = s.count a := by
  induction s with
  | nil => simp
  | cons c t ih =>
    by_cases hc : c ∈ valid_chars
    · by_cases hca : c = a
      · subst hca
        simp [List.filter_cons, hc, List.count_cons, ih]
      · simp [List.filter_cons, hc, List.count_cons, hca, ih]
    · have hca : ¬c = a := fun h => hc (h ▸ ha)
      simp [List.filter_cons, hc, List.count_cons, hca, ih]

/-- C4: `format_filename` is idempotent, its result contains only ASCII
letters, digits, and characters of `"-_.()"` (in particular no space and
no character outside `valid_chars` survives), and every space of the
input becomes an underscore of the output, underscores being otherwise
preserved. -/
theorem format_filename_spec (s : List Char) :
    format_filename (format_filename s) = format_filename s ∧
    (∀ c ∈ format_filename s, c ∈ claimAllowedChars) ∧
    ' ' ∉ format_filename s ∧
    (format_filename s).count '_' = s.count '_' + s.count ' ' := by
  refine ⟨?_, ?_, ?_, ?_⟩
  · have hall : ∀ c ∈ format_filename s, decide (c ∈ valid_chars) = true := by
      intro c hc
      obtain ⟨a, _, hav, rfl⟩ := mem_format_filename hc
      exact decide_eq_true (replaceChar_valid hav)
    have key : (format_filename s).filter (fun c => decide (c ∈ valid_chars)) =
        format_filename s := List.filter_eq_self.mpr hall
    show ((format_filename s).filter (fun c => decide (c ∈ valid_chars))).map
        (fun c => if c = ' ' then '_' else c) = format_filename s
    rw [key]
    show ((s.filter (fun c => decide (c ∈ valid_chars))).map
        (fun c => if c = ' ' then '_' else c)).map
        (fun c => if c = ' ' then '_' else c) =
      (s.filter (fun c => decide (c ∈ valid_chars))).map
        (fun c => if c = ' ' then '_' else c)
    rw [List.map_map]
    refine List.map_congr_left ?_
    intro a _
    simp only [Function.comp]
    by_cases ha : a = ' ' <;> simp [ha]
  · intro c hc
    obtain ⟨a, _, hav, rfl⟩ := mem_format_filename hc
    exact replaceChar_claim hav
  · intro hc
    obtain ⟨a, _, _, ha⟩ := mem_format_filename hc
    exact replaceChar_ne_space a ha.symm
  · unfold format_filename
    rw [count_underscore_map,
      count_filter_valid s (by decide : '_' ∈ valid_chars),
      count_filter_valid s (by decide : ' ' ∈ valid_chars)]

/-- Witness for `format_filename_spec` at the concrete input `"a b/c"`:
the slash is removed, the space becomes an underscore, and the membership
conclusion applies to that underscore. -/
theorem format_filename_spec_witness :
    format_filename "a b/c".data = "a_bc".data ∧ '_' ∈ claimAllowedChars :=
  ⟨by decide, (format_filename_spec "a b/c".data).2.1 '_' (by decide)⟩

/-! ## Lemmas about the MD5 hex digest -/

lemma md5bytes_length (msg : List Nat) : (md5bytes msg).length = 16 := by
  show (match List.foldl mdCompress (0x67452301, 0xefcdab89, 0x98badcfe, 0x10325476)
      ((chunks 64 (md5pad msg)).map fun blk => (chunks 4 blk).map wordLE) with
    | (a, b, c, d) => bytesLE a ++ bytesLE b ++ bytesLE c ++ bytesLE d).length = 16
  split
  simp [bytesLE]

lemma flatMap_byteHex_length (bs : List Nat) :
    (bs.flatMap byteHex).length = 2 * bs.length := by
  induction bs with
  | nil => simp
  | cons b t ih => simp [byteHex, ih]; omega

lemma md5hex_length (s : List Char) : (md5hex s).length = 32 := by
  unfold md5hex
  rw [flatMap_byteHex_length, md5bytes_length]

lemma getD_mem : ∀ (l : List Char) (i : Nat) (d : Char), i < l.length →
    l.getD i d ∈ l
  | [], _, _, h => absurd h (by simp)
  | a :: l, 0, d, _ => List.mem_cons_self a l
  | a :: l, i + 1, d, h =>
    List.mem_cons_of_mem a (getD_mem l i d (by simpa using h))

lemma hexDigit_mem (n : Nat) : hexDigit n ∈ hexChars := by
  unfold hexDigit
  exact getD_mem _ _ _ (Nat.mod_lt n (by norm_num))

lemma md5hex_mem {c : Char} {s : List Char} (hc : c ∈ md5hex s) :
    c ∈ hexChars := by
  unfold md5hex at hc
  obtain ⟨b, _, hcb⟩ := List.mem_flatMap.1 hc
  simp only [byteHex, List.mem_cons, List.not_mem_nil, or_false] at hcb
  rcases hcb with rfl | rfl <;> exact hexDigit_mem _

lemma comma_not_mem_md5hex (s : List Char) : ',' ∉ md5hex s :=
  fun h => absurd (md5hex_mem h) (by decide)

lemma newline_not_mem_md5hex (s : List Char) : '\n' ∉ md5hex s :=
  fun h => absurd (md5hex_mem h) (by decide)

/-! ## Lemmas about `hash_strategy` -/

/-- An axelrod-style strategy class whose source text is `"x"`. -/
def xStrategy : Strategy :=
  { name := "A".data
    original_name := none
    classSource := .ok ["x".data]
    strategyAttrSource := [] }

/-- A fortran-style player: introspection raises `TypeError` and the
`original_name` attribute is present. -/
def wStrategy : Strategy :=
  { name := "K31R".data
    original_name := some "K31R".data
    classSource := .typeError
    strategyAttrSource := [] }

/-- C7: `hash_strategy` hashes the introspected source of the class; on
`OSError` it instead hashes the source of the `strategy` attribute (and
never consults `original_name`); on `TypeError` it hashes the
`original_name` attribute (and never consults the `strategy` attribute's
source). -/
theorem hash_strategy_fallbacks (strategy : Strategy) :
    (∀ lines, strategy.classSource = .ok lines →
      hash_strategy strategy = some (md5hex lines.flatten)) ∧
    (strategy.classSource = .osError →
      hash_strategy strategy =
        some (md5hex strategy.strategyAttrSource.flatten) ∧
      ∀ o, hash_strategy { strategy with original_name := o } =
        hash_strategy strategy) ∧
    (strategy.classSource = .typeError →
      hash_strategy strategy = strategy.original_name.map md5hex ∧
      ∀ t, hash_strategy { strategy with strategyAttrSource := t } =
        hash_strategy strategy) := by
  refine ⟨?_, ?_, ?_⟩
  · intro lines h
    simp [hash_strategy, sourceCode, h]
  · intro h
    exact ⟨by simp [hash_strategy, sourceCode, h],
      fun o => by simp [hash_strategy, sourceCode, h]⟩
  · intro h
    exact ⟨by simp [hash_strategy, sourceCode, h],
      fun t => by simp [hash_strategy, sourceCode, h]⟩

/-- Witness for `hash_strategy_fallbacks`: on the fortran player, whose
introspection raises `TypeError`, the hash is the digest of
`original_name`. -/
theorem hash_strategy_fallbacks_witness :
    hash_strategy wStrategy = some (md5hex "K31R".data) :=
  ((hash_strategy_fallbacks wStrategy).2.2 rfl).1

/-- C10: a successful `hash_strategy` result is a 32-character string of
lowercase hex digits, and strategies with equal extracted source text get
equal hashes. -/
theorem hash_strategy_hexdigest (strategy : Strategy) (h : List Char)
    (hh : hash_strategy strategy = some h) :
    h.length = 32 ∧ (∀ c ∈ h, c ∈ hexChars) ∧
    ∀ s2, sourceCode s2 = sourceCode strategy → hash_strategy s2 = some h := by
  rcases hsrc : sourceCode strategy with _ | src
  · simp [hash_strategy, hsrc] at hh
  · have hh' : h = md5hex src := by
      simp [hash_strategy, hsrc] at hh
      exact hh.symm
    subst hh'
    refine ⟨md5hex_length src, fun c hc => md5hex_mem hc, ?_⟩
    intro s2 h2
    simp [hash_strategy, h2, hsrc]

/-- Witness for `hash_strategy_hexdigest` at the strategy with source
`"x"`. -/
theorem hash_strategy_hexdigest_witness :
    (md5hex "x".data).length = 32 :=
  (hash_strategy_hexdigest xStrategy (md5hex "x".data) rfl).1

/-! ## Lemmas about the loop blocks of `main` -/

lemma write_append_ne {file : List Char} {s : Strategy} {fp f : List Char}
    (hw : write_strategy_to_db file s fp = some f) : f ≠ file := by
  rcases hh : hash_strategy s with _ | hv
  · simp [write_strategy_to_db, hh] at hw
  · simp only [write_strategy_to_db, hh, Option.map_some'] at hw
    have hf := Option.some.inj hw
    intro heq
    rw [heq] at hf
    apply_fun List.length at hf
    simp only [List.length_append, List.length_cons] at hf
    omega

lemma stale_of_lookup_ne {db : Db} {name fp h signature : List Char}
    (hl : dbLookup db (name, fp) = some h) (hne : h ≠ signature) :
    stale db name fp signature = true := by
  simp [stale, hl, hne]

lemma not_stale_of_lookup_eq {db : Db} {name fp signature : List Char}
    (hl : dbLookup db (name, fp) = some signature) :
    stale db name fp signature = false := by
  simp [stale, hl]

/-- C5: for a strategy whose key is present in the db with stored hash
`h`, each of the six per-kind blocks of `main` leaves the state unchanged
exactly when `h` equals the freshly computed signature; it takes the
regeneration branch (changing the state or crashing) exactly when the
hashes differ.  The first three conjuncts are the blocks of the
strategies loop, the last three those of the fortran loop. -/
theorem stale_iff_hash_differs (db : Db) (s leftover : Strategy)
    (sig h sigf hf pname : List Char) (st : MainState) (tt tr vt vr : Nat)
    (_hsig : hash_strategy s = some sig) :
    (dbLookup db (s.name, ashlockKind) = some h →
      (ashlockStep db s sig st = some st ↔ h = sig)) ∧
    (dbLookup db (s.name, transitiveKind) = some h →
      (transitiveStep db tt tr s sig st = some st ↔ h = sig)) ∧
    (dbLookup db (s.name, transitiveVShortKind) = some h →
      (transitiveVShortStep db vt vr s sig st = some st ↔ h = sig)) ∧
    (dbLookup db (pname, ashlockKind) = some hf →
      (fortranAshlockStep db leftover pname sigf st = some st ↔ hf = sigf)) ∧
    (dbLookup db (pname, transitiveKind) = some hf →
      (fortranTransitiveStep db tt tr leftover pname sigf st = some st ↔
        hf = sigf)) ∧
    (dbLookup db (pname, transitiveVShortKind) = some hf →
      (fortranTransitiveVShortStep db tt tr leftover pname sigf st = some st ↔
        hf = sigf)) := by
  have hmain : ∀ (w : Strategy) (k : List Char) (evs : List Event)
      (nm sg hx : List Char), dbLookup db (nm, k) = some hx →
      ((if stale db nm k sg then
        (write_strategy_to_db st.file w k).map
          (fun f => MainState.mk f evs) else some st) = some st ↔ hx = sg) := by
    intro w k evs nm sg hx hleq
    by_cases hx_eq : hx = sg
    · have hns : stale db nm k sg = false := not_stale_of_lookup_eq (hx_eq ▸ hleq)
      rw [hns]
      simp [hx_eq]
    · rw [stale_of_lookup_ne hleq hx_eq, if_pos rfl]
      constructor
      · intro hcontra
        rcases hw : write_strategy_to_db st.file w k with _ | f
        · rw [hw] at hcontra; simp at hcontra
        · rw [hw] at hcontra
          simp only [Option.map_some', Option.some_inj] at hcontra
          exact absurd (congrArg MainState.file hcontra) (write_append_ne hw)
      · intro hcontra
        exact absurd hcontra hx_eq
  refine ⟨?_, ?_, ?_, ?_, ?_, ?_⟩ <;> intro hl
  · exact hmain s ashlockKind st.events s.name sig h hl
  · exact hmain s transitiveKind
      (st.events ++ [.obtainTransitive s tt tr]) s.name sig h hl
  · exact hmain s transitiveVShortKind
      (st.events ++ [.obtainTransitiveVShort s vt vr]) s.name sig h hl
  · exact hmain leftover ashlockKind st.events pname sigf hf hl
  · exact hmain leftover transitiveKind
      (st.events ++ [.obtainTransitive leftover tt tr]) pname sigf hf hl
  · exact hmain leftover transitiveVShortKind
      (st.events ++ [.obtainTransitiveVShort leftover tt tr]) pname sigf hf hl

/-- A db in which all three kinds for the strategy `"A"` store the hash
of its current source `"x"`. -/
def freshDb : Db :=
  [(("A".data, ashlockKind), md5hex "x".data),
   (("A".data, transitiveKind), md5hex "x".data),
   (("A".data, transitiveVShortKind), md5hex "x".data)]

/-- The state of `main` started on an empty cache file. -/
def st0 : MainState := ⟨[], []⟩

/-- Witness for `stale_iff_hash_differs`: an up-to-date entry makes the
Ashlock block a no-op. -/
theorem stale_iff_hash_differs_witness :
    ashlockStep freshDb xStrategy (md5hex "x".data) st0 = some st0 :=
  ((stale_iff_hash_differs freshDb xStrategy xStrategy (md5hex "x".data)
    (md5hex "x".data) (md5hex "x".data) (md5hex "x".data) "A".data st0
    0 0 0 0 rfl).1 rfl).mpr rfl

/-- C2: when the db already holds the freshly computed signature under a
block's key, that block leaves the state (the cache file and the recorded
fingerprint computations) unchanged; a loop body all of whose three kinds
are fresh is a no-op.  The first three conjuncts are the blocks of the
strategies loop, the next three those of the fortran loop, the last two
the full loop bodies. -/
theorem fresh_no_regen (db : Db) (s leftover player : Strategy)
    (sig psig pname : List Char) (st : MainState) (tt tr vt vr : Nat) :
    (dbLookup db (s.name, ashlockKind) = some sig →
      ashlockStep db s sig st = some st) ∧
    (dbLookup db (s.name, transitiveKind) = some sig →
      transitiveStep db tt tr s sig st = some st) ∧
    (dbLookup db (s.name, transitiveVShortKind) = some sig →
      transitiveVShortStep db vt vr s sig st = some st) ∧
    (dbLookup db (pname, ashlockKind) = some psig →
      fortranAshlockStep db leftover pname psig st = some st) ∧
    (dbLookup db (pname, transitiveKind) = some psig →
      fortranTransitiveStep db tt tr leftover pname psig st = some st) ∧
    (dbLookup db (pname, transitiveVShortKind) = some psig →
      fortranTransitiveVShortStep db tt tr leftover pname psig st = some st) ∧
    (hash_strategy s = some sig →
      dbLookup db (s.name, ashlockKind) = some sig →
      dbLookup db (s.name, transitiveKind) = some sig →
      dbLookup db (s.name, transitiveVShortKind) = some sig →
      processStrategy db tt tr vt vr st s = some st) ∧
    (player.original_name = some pname →
      hash_strategy player = some psig →
      dbLookup db (pname, ashlockKind) = some psig →
      dbLookup db (pname, transitiveKind) = some psig →
      dbLookup db (pname, transitiveVShortKind) = some psig →
      processFortran db tt tr leftover st player = some st) := by
  refine ⟨?_, ?_, ?_, ?_, ?_, ?_, ?_, ?_⟩
  · intro hl
    simp [ashlockStep, not_stale_of_lookup_eq hl]
  · intro hl
    simp [transitiveStep, not_stale_of_lookup_eq hl]
  · intro hl
    simp [transitiveVShortStep, not_stale_of_lookup_eq hl]
  · intro hl
    simp [fortranAshlockStep, not_stale_of_lookup_eq hl]
  · intro hl
    simp [fortranTransitiveStep, not_stale_of_lookup_eq hl]
  · intro hl
    simp [fortranTransitiveVShortStep, not_stale_of_lookup_eq hl]
  · intro hh h1 h2 h3
    simp [processStrategy, hh, ashlockStep, transitiveStep, transitiveVShortStep,
      not_stale_of_lookup_eq h1, not_stale_of_lookup_eq h2,
      not_stale_of_lookup_eq h3]
  · intro hpn hh h1 h2 h3
    simp [processFortran, hpn, hh, fortranAshlockStep, fortranTransitiveStep,
      fortranTransitiveVShortStep, not_stale_of_lookup_eq h1,
      not_stale_of_lookup_eq h2, not_stale_of_lookup_eq h3]

/-- Witness for `fresh_no_regen`: with all three kinds fresh, the whole
strategies-loop body leaves the state unchanged. -/
theorem fresh_no_regen_witness :
    processStrategy freshDb 1 2 3 4 st0 xStrategy = some st0 :=
  (fresh_no_regen freshDb xStrategy xStrategy xStrategy (md5hex "x".data)
    (md5hex "x".data) "A".data st0 1 2 3 4).2.2.2.2.2.2.1 rfl rfl rfl rfl

/-! ## The missing cache file (C6) -/

lemma buildDb_not_fnf : ∀ (rows : List (List (List Char))) (d : Db),
    buildDb d rows ≠ .error .fileNotFound
  | [], _, h => by simp [buildDb] at h
  | (_ :: _ :: _ :: _) :: rest, _, h => buildDb_not_fnf rest _ h
  | [] :: _, _, h => by simp [buildDb] at h
  | [_] :: _, _, h => by simp [buildDb] at h
  | [_, _] :: _, _, h => by simp [buildDb] at h

/-- C6 (amended): a missing cache file is reported as `FileNotFoundError`;
any error `read_db` raises on an existing file is an `IndexError` from a
malformed row, never `FileNotFoundError`; on the empty file that
`create_db` writes, `read_db` returns the empty mapping, so `main`
started without a cache file proceeds with the empty mapping and the
empty file. -/
theorem missing_db_created (c : List Char) (e : ReadErr)
    (h : readDbFile (some c) = .error e) :
    readDbFile none = .error .fileNotFound ∧ e = .indexError ∧
    read_db create_db = .ok [] ∧ mainInit none = some ([], create_db) := by
  refine ⟨rfl, ?_, rfl, rfl⟩
  cases e
  · exact absurd h (buildDb_not_fnf _ _)
  · rfl

/-- Witness for `missing_db_created` at the malformed one-line file
consisting of a single newline. -/
theorem missing_db_created_witness :
    readDbFile none = .error .fileNotFound ∧
    ReadErr.indexError = .indexError ∧
    read_db create_db = .ok [] ∧ mainInit none = some ([], create_db) :=
  missing_db_created ['\n'] .indexError rfl

/-- Counterexample to C6 as stated: `read_db` does not raise only on a
missing file; a present file consisting of a single blank line makes it
raise `IndexError`. -/
theorem read_db_error_on_existing_file :
    readDbFile (some ['\n']) = .error .indexError ∧
    (some ['\n'] : Option (List Char)) ≠ none :=
  ⟨rfl, by simp⟩

/-! ## Parsing lemmas for the csv model -/

lemma splitOnChar_ne_nil (sep : Char) (l : List Char) :
    splitOnChar sep l ≠ [] := by
  cases l with
  | nil => simp [splitOnChar]
  | cons c rest =>
    unfold splitOnChar
    rcases h : splitOnChar sep rest with _ | ⟨f, fs⟩
    · simp
    · by_cases hc : c = sep <;> simp [hc]

lemma splitOnChar_not_mem {sep : Char} :
    ∀ {xs : List Char}, sep ∉ xs → splitOnChar sep xs = [xs] := by
  intro xs
  induction xs with
  | nil => intro; rfl
  | cons c rest ih =>
    intro h
    have hc : c ≠ sep := fun hcs => h (hcs ▸ List.mem_cons_self c rest)
    have hrest : sep ∉ rest := fun hm => h (List.mem_cons_of_mem c hm)
    unfold splitOnChar
    rw [ih hrest]
    simp [hc]

lemma splitOnChar_cons (sep c : Char) (rest : List Char) :
    splitOnChar sep (c :: rest) =
      match splitOnChar sep rest with
      | [] => [[]]
      | f :: fs => if c = sep then [] :: f :: fs else (c :: f) :: fs := rfl

lemma splitOnChar_append {sep : Char} :
    ∀ {xs : List Char} (ys : List Char), sep ∉ xs →
      splitOnChar sep (xs ++ sep :: ys) = xs :: splitOnChar sep ys := by
  intro xs
  induction xs with
  | nil =>
    intro ys _
    rw [List.nil_append, splitOnChar_cons]
    rcases h : splitOnChar sep ys with _ | ⟨f, fs⟩
    · exact absurd h (splitOnChar_ne_nil sep ys)
    · simp
  | cons c rest ih =>
    intro ys h
    have hc : c ≠ sep := fun hcs => h (hcs ▸ List.mem_cons_self c rest)
    have hrest : sep ∉ rest := fun hm => h (List.mem_cons_of_mem c hm)
    show splitOnChar sep (c :: (rest ++ sep :: ys)) = (c :: rest) :: splitOnChar sep ys
    rw [splitOnChar_cons, ih ys hrest]
    simp [hc]

lemma fileLines_linesJoin :
    ∀ {ls : List (List Char)}, (∀ l ∈ ls, '\n' ∉ l) →
      fileLines (linesJoin ls) = ls := by
  intro ls
  induction ls with
  | nil =>
    intro
    rfl
  | cons l rest ih =>
    intro h
    have hl : '\n' ∉ l := h l (List.mem_cons_self l rest)
    have hrest : ∀ x ∈ rest, '\n' ∉ x := fun x hx => h x (List.mem_cons_of_mem l hx)
    have hjoin : linesJoin (l :: rest) = l ++ '\n' :: linesJoin rest := by
      simp [linesJoin]
    have hsplit : splitOnChar '\n' (linesJoin (l :: rest)) =
        l :: splitOnChar '\n' (linesJoin rest) := by
      rw [hjoin]
      exact splitOnChar_append (linesJoin rest) hl
    have hprev := ih hrest
    unfold fileLines at hprev ⊢
    rw [hsplit]
    rcases hp : splitOnChar '\n' (linesJoin rest) with _ | ⟨p, ps⟩
    · exact absurd hp (splitOnChar_ne_nil _ _)
    · rw [hp] at hprev
      by_cases hlast : (p :: ps).getLast? = some []
      · rw [if_pos hlast] at hprev
        have : (l :: p :: ps).getLast? = some [] := by
          rwa [List.getLast?_cons_cons]
        rw [if_pos this]
        rw [List.dropLast_cons₂]
        rw [hprev]
      · rw [if_neg hlast] at hprev
        have : ¬(l :: p :: ps).getLast? = some [] := by
          rwa [List.getLast?_cons_cons]
        rw [if_neg this]
        rw [hprev]

/-- The comma-separated row of three fields, as written by
`write_strategy_to_db` (without the trailing newline). -/
def rowOfFields (a b c : List Char) : List Char :=
  a ++ ',' :: (b ++ ',' :: c)

lemma parseRow_rowOfFields {a b c : List Char} (ha : ',' ∉ a) (hb : ',' ∉ b)
    (hc : ',' ∉ c) : parseRow (rowOfFields a b c) = [a, b, c] := by
  have hne : rowOfFields a b c ≠ [] := by
    unfold rowOfFields
    cases a <;> simp
  unfold parseRow
  rw [if_neg hne]
  show splitOnChar ',' (a ++ ',' :: (b ++ ',' :: c)) = [a, b, c]
  rw [splitOnChar_append _ ha, splitOnChar_append _ hb, splitOnChar_not_mem hc]

lemma newline_not_mem_rowOfFields {a b c : List Char} (ha : '\n' ∉ a)
    (hb : '\n' ∉ b) (hc : '\n' ∉ c) : '\n' ∉ rowOfFields a b c := by
  unfold rowOfFields
  intro h
  rcases List.mem_append.1 h with h1 | h1
  · exact ha h1
  · rcases List.mem_cons.1 h1 with h2 | h2
    · exact absurd h2 (by decide)
    · rcases List.mem_append.1 h2 with h3 | h3
      · exact hb h3
      · rcases List.mem_cons.1 h3 with h4 | h4
        · exact absurd h4 (by decide)
        · exact hc h4

lemma write_strategy_to_db_eq {file : List Char} {s : Strategy}
    {fp h : List Char} (hh : hash_strategy s = some h) :
    write_strategy_to_db file s fp =
      some (file ++ rowOfFields (dbName s) fp h ++ ['\n']) := by
  simp [write_strategy_to_db, hh, rowOfFields]

/-! ## Dict lemmas -/

lemma dbLookup_dbInsert (d : Db) (k : List Char × List Char)
    (v : List Char) (k' : List Char × List Char) :
    dbLookup (dbInsert d k v) k' = if k = k' then some v else dbLookup d k' := by
  induction d with
  | nil => rfl
  | cons e rest ih =>
    rcases e with ⟨ke, ve⟩
    by_cases hke : ke = k
    · subst hke
      by_cases hk' : ke = k' <;> simp [dbInsert, dbLookup, hk']
    · by_cases hk' : ke = k'
      · subst hk'
        have hkk : ¬k = ke := fun h => hke h.symm
        simp [dbInsert, dbLookup, hke, hkk]
      · simp [dbInsert, dbLookup, hke, hk', ih]

lemma buildDb_append_rows :
    ∀ (r1 r2 : List (List (List Char))) (d : Db),
      buildDb d (r1 ++ r2) =
        match buildDb d r1 with
        | .ok d' => buildDb d' r2
        | .error e => .error e := by
  intro r1
  induction r1 with
  | nil => intro r2 d; rfl
  | cons row rest ih =>
    intro r2 d
    rcases row with _ | ⟨a, row'⟩
    · rfl
    · rcases row' with _ | ⟨b, row''⟩
      · rfl
      · rcases row'' with _ | ⟨c, _⟩
        · rfl
        · show buildDb (dbInsert d (a, b) c) (rest ++ r2) = _
          rw [ih r2 (dbInsert d (a, b) c)]
          rfl

lemma read_db_linesJoin (ls : List (List Char))
    (hls : ∀ l ∈ ls, '\n' ∉ l) :
    read_db (linesJoin ls) = buildDb [] (ls.map parseRow) := by
  unfold read_db
  rw [fileLines_linesJoin hls]

lemma read_db_append_row {ls : List (List Char)} {d : Db}
    {a b c : List Char}
    (hls : ∀ l ∈ ls, '\n' ∉ l)
    (hd : read_db (linesJoin ls) = .ok d)
    (hna : '\n' ∉ a) (hnb : '\n' ∉ b) (hnc : '\n' ∉ c)
    (hca : ',' ∉ a) (hcb : ',' ∉ b) (hcc : ',' ∉ c) :
    read_db (linesJoin ls ++ rowOfFields a b c ++ ['\n']) =
      .ok (dbInsert d (a, b) c) := by
  have hjoin : linesJoin ls ++ rowOfFields a b c ++ ['\n'] =
      linesJoin (ls ++ [rowOfFields a b c]) := by
    simp [linesJoin]
  have hls' : ∀ l ∈ ls ++ [rowOfFields a b c], '\n' ∉ l := by
    intro l hl
    rcases List.mem_append.1 hl with h | h
    · exact hls l h
    · rcases List.mem_cons.1 h with h' | h'
      · subst h'
        exact newline_not_mem_rowOfFields hna hnb hnc
      · cases h'
  rw [hjoin, read_db_linesJoin _ hls', List.map_append,
    buildDb_append_rows]
  rw [read_db_linesJoin ls hls] at hd
  rw [hd]
  show buildDb d [parseRow (rowOfFields a b c)] = _
  rw [parseRow_rowOfFields hca hcb hcc]
  rfl

/-! ## Last row wins (C9) -/

/-- The value of the last row of `rows` whose first two fields form the
key `k`, if any: the formalisation of "the hash of the last such row in
file order". -/
def lastTriple (rows : List (List (List Char)))
    (k : List Char × List Char) : Option (List Char) :=
  (((rows.filterMap rowTriple).filter (fun t => decide (t.1 = k))).getLast?).map
    (fun t => t.2)

lemma lastTriple_nil (k : List Char × List Char) : lastTriple [] k = none := rfl

lemma getLast?_cons {α : Type} (a : α) (l : List α) :
    (a :: l).getLast? = match l.getLast? with
      | some v => some v
      | none => some a := by
  induction l generalizing a with
  | nil => rfl
  | cons b t ih =>
    rw [List.getLast?_cons_cons]
    have hsome : (b :: t).getLast?.isSome := by
      rw [ih b]
      rcases t.getLast? <;> simp
    rcases h : (b :: t).getLast? with _ | v
    · rw [h] at hsome
      simp at hsome
    · simp

lemma buildDb_lookup :
    ∀ (rows : List (List (List Char))) (d0 d : Db),
      buildDb d0 rows = .ok d → ∀ k,
        dbLookup d k = match lastTriple rows k with
          | some v => some v
          | none => dbLookup d0 k := by
  intro rows
  induction rows with
  | nil =>
    intro d0 d hb k
    cases hb
    simp [lastTriple]
  | cons row rest ih =>
    intro d0 d hb k
    rcases hrow : rowTriple row with _ | ⟨⟨a, b⟩, c⟩
    · rcases row with _ | ⟨a, row'⟩
      · simp [buildDb] at hb
      · rcases row' with _ | ⟨b, row''⟩
        · simp [buildDb] at hb
        · rcases row'' with _ | ⟨c, _⟩
          · simp [buildDb] at hb
          · simp [rowTriple] at hrow
    · have hshape : ∃ t, row = a :: b :: c :: t := by
        rcases row with _ | ⟨x, row'⟩
        · simp [rowTriple] at hrow
        · rcases row' with _ | ⟨y, row''⟩
          · simp [rowTriple] at hrow
          · rcases row'' with _ | ⟨z, t⟩
            · simp [rowTriple] at hrow
            · obtain ⟨⟨h1, h2⟩, h3⟩ := by
                simpa [rowTriple, Prod.ext_iff] using hrow
              exact ⟨t, by rw [h1, h2, h3]⟩
      obtain ⟨t, rfl⟩ := hshape
      have hb' : buildDb (dbInsert d0 (a, b) c) rest = .ok d := hb
      have ihd := ih _ d hb' k
      have hlt : lastTriple ((a :: b :: c :: t) :: rest) k =
          match lastTriple rest k with
          | some v => some v
          | none => if (a, b) = k then some c else none := by
        unfold lastTriple
        rw [List.filterMap_cons]
        rw [hrow]
        by_cases hk : (a, b) = k
        · rw [List.filter_cons_of_pos (by simpa using hk)]
          rw [getLast?_cons]
          rcases hlast : (((rest.filterMap rowTriple).filter
              (fun t => decide (t.1 = k))).getLast?) with _ | v
          · rw [hlast]
            simp [hk]
          · rw [hlast]
            simp
        · rw [List.filter_cons_of_neg (by simpa using hk)]
          rcases hlast : (((rest.filterMap rowTriple).filter
              (fun t => decide (t.1 = k))).getLast?) with _ | v
          · rw [hlast]
            simp [hk]
          · rw [hlast]
            simp
      rw [ihd, hlt]
      rcases lastTriple rest k with _ | v
      · rw [dbLookup_dbInsert]
        by_cases hk : (a, b) = k <;> simp [hk]
      · rfl

/-- C9: when `read_db` succeeds, the returned mapping binds every key to
the hash field of the last row of the file carrying that key, so later
appended rows win over all earlier ones. -/
theorem read_db_last_row_wins (content : List Char) (d : Db)
    (k : List Char × List Char) (h : read_db content = .ok d) :
    dbLookup d k = lastTriple ((fileLines content).map parseRow) k := by
  have hb : buildDb [] ((fileLines content).map parseRow) = .ok d := h
  rw [buildDb_lookup _ [] d hb k]
  rcases lastTriple ((fileLines content).map parseRow) k with _ | v <;> rfl

/-- Witness for `read_db_last_row_wins` on a two-row file with a repeated
key: the mapping holds the second row's hash. -/
theorem read_db_last_row_wins_witness :
    dbLookup [(("a".data, "b".data), "2".data)] ("a".data, "b".data) =
      lastTriple ((fileLines "a,b,1\na,b,2\n".data).map parseRow)
        ("a".data, "b".data) :=
  read_db_last_row_wins "a,b,1\na,b,2\n".data
    [(("a".data, "b".data), "2".data)] ("a".data, "b".data) rfl

/-! ## Round trip (C3) -/

lemma hash_strategy_shape {s : Strategy} {h : List Char}
    (hh : hash_strategy s = some h) : ∃ src, h = md5hex src := by
  rcases hsrc : sourceCode s with _ | src
  · simp [hash_strategy, hsrc] at hh
  · refine ⟨src, ?_⟩
    simp [hash_strategy, hsrc] at hh
    exact hh.symm

lemma comma_not_mem_hash {s : Strategy} {h : List Char}
    (hh : hash_strategy s = some h) : ',' ∉ h := by
  obtain ⟨src, rfl⟩ := hash_strategy_shape hh
  exact comma_not_mem_md5hex src

lemma newline_not_mem_hash {s : Strategy} {h : List Char}
    (hh : hash_strategy s = some h) : '\n' ∉ h := by
  obtain ⟨src, rfl⟩ := hash_strategy_shape hh
  exact newline_not_mem_md5hex src

/-- The row written for an entry (without the trailing newline). -/
def rowOf (e : Strategy × List Char) : List Char :=
  rowOfFields (dbName e.1) e.2 ((hash_strategy e.1).getD [])

lemma linesJoin_append_row (ls : List (List Char)) (r : List Char) :
    linesJoin ls ++ r ++ ['\n'] = linesJoin (ls ++ [r]) := by
  simp [linesJoin]

lemma writeAll_linesJoin :
    ∀ (l : List (Strategy × List Char)) (ls : List (List Char)),
      (∀ e ∈ l, (hash_strategy e.1).isSome) →
      writeAll (linesJoin ls) l = some (linesJoin (ls ++ l.map rowOf)) := by
  intro l
  induction l with
  | nil =>
    intro ls _
    simp [writeAll]
  | cons e rest ih =>
    intro ls hhash
    rcases e with ⟨s, fp⟩
    obtain ⟨h, hh⟩ := Option.isSome_iff_exists.1
      (hhash (s, fp) (List.mem_cons_self _ _))
    have hrow : rowOf (s, fp) = rowOfFields (dbName s) fp h := by
      simp [rowOf, hh]
    show (write_strategy_to_db (linesJoin ls) s fp).bind
        (fun f => writeAll f rest) = _
    rw [write_strategy_to_db_eq hh, Option.some_bind,
      linesJoin_append_row, ih _ (fun e he => hhash e (List.mem_cons_of_mem _ he))]
    rw [← hrow]
    simp

/-- The key-value pair an entry contributes to the read-back db. -/
def tripleOf (e : Strategy × List Char) :
    (List Char × List Char) × List Char :=
  (entryKey e, (hash_strategy e.1).getD [])

lemma parseRow_rowOf {e : Strategy × List Char}
    (hsafe : csvSafe (dbName e.1) ∧ csvSafe e.2)
    (hhash : (hash_strategy e.1).isSome) :
    parseRow (rowOf e) = [dbName e.1, e.2, (hash_strategy e.1).getD []] := by
  obtain ⟨h, hh⟩ := Option.isSome_iff_exists.1 hhash
  unfold rowOf
  exact parseRow_rowOfFields hsafe.1.1 hsafe.2.1
    (by rw [hh]; exact comma_not_mem_hash hh)

lemma newline_not_mem_rowOf {e : Strategy × List Char}
    (hsafe : csvSafe (dbName e.1) ∧ csvSafe e.2)
    (hhash : (hash_strategy e.1).isSome) : '\n' ∉ rowOf e := by
  obtain ⟨h, hh⟩ := Option.isSome_iff_exists.1 hhash
  unfold rowOf
  exact newline_not_mem_rowOfFields hsafe.1.2.1 hsafe.2.2.1
    (by rw [hh]; exact newline_not_mem_hash hh)

lemma rows_filterMap :
    ∀ (l : List (Strategy × List Char)),
      (∀ e ∈ l, csvSafe (dbName e.1) ∧ csvSafe e.2) →
      (∀ e ∈ l, (hash_strategy e.1).isSome) →
      ((l.map rowOf).map parseRow).filterMap rowTriple = l.map tripleOf := by
  intro l
  induction l with
  | nil => intro _ _; rfl
  | cons e rest ih =>
    intro hsafe hhash
    have hparse := parseRow_rowOf (hsafe e (List.mem_cons_self _ _))
      (hhash e (List.mem_cons_self _ _))
    show (((rowOf e :: rest.map rowOf).map parseRow).filterMap rowTriple) = _
    rw [List.map_cons, List.filterMap_cons, hparse]
    show tripleOf e :: ((rest.map rowOf).map parseRow).filterMap rowTriple = _
    rw [ih (fun e he => hsafe e (List.mem_cons_of_mem _ he))
      (fun e he => hhash e (List.mem_cons_of_mem _ he))]
    rfl

lemma filter_key_of_mem :
    ∀ (l : List (Strategy × List Char)) (e : Strategy × List Char),
      (l.map entryKey).Nodup → e ∈ l →
      (l.map tripleOf).filter (fun t => decide (t.1 = entryKey e)) =
        [tripleOf e] := by
  intro l
  induction l with
  | nil => intro e _ he; cases he
  | cons a rest ih =>
    intro e hnodup he
    have hnotin : entryKey a ∉ rest.map entryKey :=
      (List.nodup_cons.1 hnodup).1
    have hnodup' : (rest.map entryKey).Nodup := (List.nodup_cons.1 hnodup).2
    rcases List.mem_cons.1 he with rfl | he'
    · rw [List.map_cons,
        List.filter_cons_of_pos (by simp [tripleOf])]
      have hrest : (rest.map tripleOf).filter
          (fun t => decide (t.1 = entryKey e)) = [] := by
        rw [List.filter_eq_nil_iff]
        intro t ht
        obtain ⟨e', he', rfl⟩ := List.mem_map.1 ht
        simp only [tripleOf, decide_eq_true_eq]
        intro hkey
        exact hnotin (hkey ▸ List.mem_map_of_mem entryKey he')
      rw [hrest]
    · have hne : ¬(tripleOf a).1 = entryKey e := by
        simp only [tripleOf]
        intro hkey
        exact hnotin (hkey ▸ List.mem_map_of_mem entryKey he')
      rw [List.map_cons, List.filter_cons_of_neg (by simpa using hne)]
      exact ih e hnodup' he'

lemma filter_key_of_not_mem
    (l : List (Strategy × List Char)) (k : List Char × List Char)
    (hk : ∀ e ∈ l, entryKey e ≠ k) :
    (l.map tripleOf).filter (fun t => decide (t.1 = k)) = [] := by
  rw [List.filter_eq_nil_iff]
  intro t ht
  obtain ⟨e, he, rfl⟩ := List.mem_map.1 ht
  simpa [tripleOf] using hk e he

lemma buildDb_ok :
    ∀ (rows : List (List (List Char))),
      (∀ r ∈ rows, ∃ a b c t, r = a :: b :: c :: t) →
      ∀ d, ∃ d', buildDb d rows = .ok d' := by
  intro rows
  induction rows with
  | nil => intro _ d; exact ⟨d, rfl⟩
  | cons row rest ih =>
    intro hshape d
    obtain ⟨a, b, c, t, rfl⟩ := hshape row (List.mem_cons_self _ _)
    exact ih (fun r hr => hshape r (List.mem_cons_of_mem _ hr)) (dbInsert d (a, b) c)

/-- C3 (amended): writing every entry of a mapping to an empty file with
`write_strategy_to_db` and reading the file back with `read_db`
reproduces the mapping, provided the names and kinds contain no comma,
newline, carriage return, or quote character (the hash field, an MD5 hex
digest, is always safe).  Keys of the mapping written are looked up with
their entries' hashes; keys not written read back as absent. -/
theorem write_read_round_trip (l : List (Strategy × List Char))
    (hnodup : (l.map entryKey).Nodup)
    (hsafe : ∀ e ∈ l, csvSafe (dbName e.1) ∧ csvSafe e.2)
    (hhash : ∀ e ∈ l, (hash_strategy e.1).isSome) :
    (∀ e ∈ l,
      ((writeAll create_db l).bind fun f => (read_db f).toOption.bind fun d =>
        some (dbLookup d (entryKey e))) = some (hash_strategy e.1)) ∧
    (∀ k, (∀ e ∈ l, entryKey e ≠ k) →
      ((writeAll create_db l).bind fun f => (read_db f).toOption.bind fun d =>
        some (dbLookup d k)) = some none) := by
  have hw : writeAll create_db l = some (linesJoin (l.map rowOf)) := by
    have := writeAll_linesJoin l [] hhash
    simpa [linesJoin] using this
  have hlsafe : ∀ r ∈ l.map rowOf, '\n' ∉ r := by
    intro r hr
    obtain ⟨e, he, rfl⟩ := List.mem_map.1 hr
    exact newline_not_mem_rowOf (hsafe e he) (hhash e he)
  have hshape : ∀ r ∈ (l.map rowOf).map parseRow,
      ∃ a b c t, r = a :: b :: c :: t := by
    intro r hr
    obtain ⟨r', hr', rfl⟩ := List.mem_map.1 hr
    obtain ⟨e, he, rfl⟩ := List.mem_map.1 hr'
    rw [parseRow_rowOf (hsafe e he) (hhash e he)]
    exact ⟨_, _, _, [], rfl⟩
  obtain ⟨D, hD⟩ := buildDb_ok _ hshape []
  have hreadeq : read_db (linesJoin (l.map rowOf)) = .ok D := by
    rw [read_db_linesJoin _ hlsafe]
    exact hD
  have hlookup : ∀ k, dbLookup D k =
      lastTriple ((l.map rowOf).map parseRow) k := by
    intro k
    have := buildDb_lookup _ [] D hD k
    rw [this]
    rcases lastTriple ((l.map rowOf).map parseRow) k with _ | v <;> rfl
  have hfilterMap := rows_filterMap l hsafe hhash
  constructor
  · intro e he
    rw [hw]
    simp only [Option.some_bind, hreadeq, Except.toOption, Option.some_bind]
    rw [hlookup (entryKey e)]
    unfold lastTriple
    rw [hfilterMap, filter_key_of_mem l e hnodup he]
    obtain ⟨h, hh⟩ := Option.isSome_iff_exists.1 (hhash e he)
    simp [tripleOf, hh]
  · intro k hk
    rw [hw]
    simp only [Option.some_bind, hreadeq, Except.toOption, Option.some_bind]
    rw [hlookup k]
    unfold lastTriple
    rw [hfilterMap, filter_key_of_not_mem l k hk]
    rfl

/-- Witness for `write_read_round_trip` at the one-entry mapping for the
strategy named `"A"` with source `"x"`. -/
theorem write_read_round_trip_witness :
    ((writeAll create_db [(xStrategy, ashlockKind)]).bind fun f =>
      (read_db f).toOption.bind fun d =>
      some (dbLookup d (entryKey (xStrategy, ashlockKind)))) =
      some (hash_strategy xStrategy) :=
  (write_read_round_trip [(xStrategy, ashlockKind)] (by simp)
    (fun e he => by
      rcases List.mem_cons.1 he with rfl | h
      · exact ⟨by decide, by decide⟩
      · cases h)
    (fun e he => by
      rcases List.mem_cons.1 he with rfl | h
      · exact rfl
      · cases h)).1
    (xStrategy, ashlockKind) (List.mem_cons_self _ _)

/-- A strategy whose `name` attribute contains a comma. -/
def commaStrategy : Strategy :=
  { name := "a,b".data
    original_name := none
    classSource := .ok ["x".data]
    strategyAttrSource := [] }

set_option maxRecDepth 40000 in
/-- Counterexample to C3 as stated: for the one-entry mapping of the
strategy named `"a,b"`, the write-then-read round trip does not
reproduce the mapping; the written key reads back as absent, because the
comma in the name shifts the csv fields. -/
theorem round_trip_comma_counterexample :
    ((writeAll create_db [(commaStrategy, ashlockKind)]).bind fun f =>
      (read_db f).toOption.bind fun d =>
      some (dbLookup d (entryKey (commaStrategy, ashlockKind)))) =
      some none ∧
    hash_strategy commaStrategy ≠ none := by
  constructor
  · decide
  · simp [hash_strategy, sourceCode, commaStrategy]

/-! ## Row format and append-only file use (C8) -/

lemma ite_write_extend {c : Prop} [Decidable c] {st : MainState} {w : Strategy}
    {fp : List Char} {evs : List Event} {st' : MainState}
    (h : (if c then (write_strategy_to_db st.file w fp).map
        (fun f => MainState.mk f evs) else some st) = some st') :
    ∃ t, st'.file = st.file ++ t := by
  by_cases hc : c
  · rw [if_pos hc] at h
    rcases hh : hash_strategy w with _ | hv
    · rw [write_strategy_to_db, hh] at h
      simp at h
    · rw [write_strategy_to_db_eq hh] at h
      simp only [Option.map_some', Option.some_inj] at h
      refine ⟨rowOfFields (dbName w) fp hv ++ ['\n'], ?_⟩
      rw [← h]
      simp [List.append_assoc]
  · rw [if_neg hc] at h
    obtain rfl := Option.some.inj h
    exact ⟨[], by simp⟩

lemma processStrategy_extend {db : Db} {tt tr vt vr : Nat} {st : MainState}
    {s : Strategy} {st' : MainState}
    (h : processStrategy db tt tr vt vr st s = some st') :
    ∃ t, st'.file = st.file ++ t := by
  unfold processStrategy at h
  rcases hh : hash_strategy s with _ | sig
  · rw [hh] at h; simp at h
  · rw [hh, Option.some_bind] at h
    rcases h1 : ashlockStep db s sig st with _ | st1
    · rw [h1] at h; simp at h
    · rw [h1, Option.some_bind] at h
      rcases h2 : transitiveStep db tt tr s sig st1 with _ | st2
      · rw [h2] at h; simp at h
      · rw [h2, Option.some_bind] at h
        obtain ⟨t1, he1⟩ := ite_write_extend (c := stale db s.name ashlockKind sig = true) h1
        obtain ⟨t2, he2⟩ := ite_write_extend (c := stale db s.name transitiveKind sig = true) h2
        obtain ⟨t3, he3⟩ := ite_write_extend (c := stale db s.name transitiveVShortKind sig = true) h
        exact ⟨t1 ++ t2 ++ t3, by rw [he3, he2, he1]; simp [List.append_assoc]⟩

lemma processFortran_extend {db : Db} {tt tr : Nat} {leftover : Strategy}
    {st : MainState} {player : Strategy} {st' : MainState}
    (h : processFortran db tt tr leftover st player = some st') :
    ∃ t, st'.file = st.file ++ t := by
  unfold processFortran at h
  rcases hpn : player.original_name with _ | pname
  · rw [hpn] at h; simp at h
  · rw [hpn, Option.some_bind] at h
    rcases hh : hash_strategy player with _ | sig
    · rw [hh] at h; simp at h
    · rw [hh, Option.some_bind] at h
      rcases h1 : fortranAshlockStep db leftover pname sig st with _ | st1
      · rw [h1] at h; simp at h
      · rw [h1, Option.some_bind] at h
        rcases h2 : fortranTransitiveStep db tt tr leftover pname sig st1 with _ | st2
        · rw [h2] at h; simp at h
        · rw [h2, Option.some_bind] at h
          obtain ⟨t1, he1⟩ := ite_write_extend (c := stale db pname ashlockKind sig = true) h1
          obtain ⟨t2, he2⟩ := ite_write_extend (c := stale db pname transitiveKind sig = true) h2
          obtain ⟨t3, he3⟩ := ite_write_extend (c := stale db pname transitiveVShortKind sig = true) h
          exact ⟨t1 ++ t2 ++ t3, by rw [he3, he2, he1]; simp [List.append_assoc]⟩

lemma runLoop1_extend {db : Db} {tt tr vt vr : Nat} :
    ∀ {strategies : List Strategy} {st st' : MainState},
      runLoop1 db tt tr vt vr strategies st = some st' →
      ∃ t, st'.file = st.file ++ t := by
  intro strategies
  induction strategies with
  | nil =>
    intro st st' h
    obtain rfl := Option.some.inj h
    exact ⟨[], by simp⟩
  | cons s rest ih =>
    intro st st' h
    rw [runLoop1, List.foldlM_cons] at h
    rcases h1 : processStrategy db tt tr vt vr st s with _ | st1
    · rw [h1] at h
      exact Option.noConfusion h
    · rw [h1] at h
      obtain ⟨t1, he1⟩ := processStrategy_extend h1
      obtain ⟨t2, he2⟩ := ih h
      exact ⟨t1 ++ t2, by rw [he2, he1]; simp [List.append_assoc]⟩

lemma runLoop2_extend {db : Db} {tt tr : Nat} {leftover : Strategy} :
    ∀ {players : List Strategy} {st st' : MainState},
      runLoop2 db tt tr leftover players st = some st' →
      ∃ t, st'.file = st.file ++ t := by
  intro players
  induction players with
  | nil =>
    intro st st' h
    obtain rfl := Option.some.inj h
    exact ⟨[], by simp⟩
  | cons p rest ih =>
    intro st st' h
    rw [runLoop2, List.foldlM_cons] at h
    rcases h1 : processFortran db tt tr leftover st p with _ | st1
    · rw [h1] at h
      exact Option.noConfusion h
    · rw [h1] at h
      obtain ⟨t1, he1⟩ := processFortran_extend h1
      obtain ⟨t2, he2⟩ := ih h
      exact ⟨t1 ++ t2, by rw [he2, he1]; simp [List.append_assoc]⟩

/-- C8: every row appended by `write_strategy_to_db` is the
comma-separated triple of the written name (`original_name` when
present, else `name`), the fingerprint kind, and the MD5 hex digest of
the source; the loop bodies and the loops of `main` only ever extend the
file content on the right; and `read_db` turns the whole file into a
mapping keyed by the first two fields of each row, every binding coming
from some row and every well-formed row's key being bound. -/
theorem db_rows_and_append_only :
    (∀ (file : List Char) (s : Strategy) (fp h : List Char),
      hash_strategy s = some h →
      write_strategy_to_db file s fp =
        some (file ++ rowOfFields (dbName s) fp h ++ ['\n'])) ∧
    (∀ (db : Db) (tt tr vt vr : Nat) (st : MainState) (s : Strategy)
      (st' : MainState), processStrategy db tt tr vt vr st s = some st' →
      ∃ t, st'.file = st.file ++ t) ∧
    (∀ (db : Db) (tt tr : Nat) (leftover : Strategy) (st : MainState)
      (player : Strategy) (st' : MainState),
      processFortran db tt tr leftover st player = some st' →
      ∃ t, st'.file = st.file ++ t) ∧
    (∀ (db : Db) (tt tr vt vr : Nat) (strategies : List Strategy)
      (st st' : MainState),
      runLoop1 db tt tr vt vr strategies st = some st' →
      ∃ t, st'.file = st.file ++ t) ∧
    (∀ (db : Db) (tt tr : Nat) (leftover : Strategy)
      (players : List Strategy) (st st' : MainState),
      runLoop2 db tt tr leftover players st = some st' →
      ∃ t, st'.file = st.file ++ t) ∧
    (∀ (content : List Char) (d : Db), read_db content = .ok d →
      (∀ k v, dbLookup d k = some v →
        (k, v) ∈ ((fileLines content).map parseRow).filterMap rowTriple) ∧
      (∀ t ∈ ((fileLines content).map parseRow).filterMap rowTriple,
        dbLookup d t.1 ≠ none)) := by
  refine ⟨?_, ?_, ?_, ?_, ?_, ?_⟩
  · intro file s fp h hh
    exact write_strategy_to_db_eq hh
  · intro db tt tr vt vr st s st' h
    exact processStrategy_extend h
  · intro db tt tr leftover st player st' h
    exact processFortran_extend h
  · intro db tt tr vt vr strategies st st' h
    exact runLoop1_extend h
  · intro db tt tr leftover players st st' h
    exact runLoop2_extend h
  · intro content d hread
    constructor
    · intro k v hkv
      rw [read_db_last_row_wins content d k hread] at hkv
      unfold lastTriple at hkv
      rcases hlast : ((((fileLines content).map parseRow).filterMap
          rowTriple).filter (fun t => decide (t.1 = k))).getLast? with _ | t
      · rw [hlast] at hkv; simp at hkv
      · rw [hlast] at hkv
        simp only [Option.map_some', Option.some_inj] at hkv
        have htmem : t ∈ (((fileLines content).map parseRow).filterMap
            rowTriple).filter (fun u => decide (u.1 = k)) := by
          have hmem' := Option.mem_def.2 hlast
          obtain ⟨hne', heq⟩ := List.mem_getLast?_eq_getLast hmem'
          rw [heq]
          exact List.getLast_mem hne'
        have hpred := List.of_mem_filter htmem
        have hkey : t.1 = k := of_decide_eq_true hpred
        have : (k, v) = t := by
          rcases t with ⟨tk, tv⟩
          simp only at hkey hkv
          rw [hkey, hkv]
        rw [this]
        exact List.mem_of_mem_filter htmem
    · intro t ht
      rw [read_db_last_row_wins content d t.1 hread]
      unfold lastTriple
      have hmem : t ∈ (((fileLines content).map parseRow).filterMap
          rowTriple).filter (fun u => decide (u.1 = t.1)) :=
        List.mem_filter.2 ⟨ht, by simp⟩
      have hne : (((fileLines content).map parseRow).filterMap
          rowTriple).filter (fun u => decide (u.1 = t.1)) ≠ [] :=
        List.ne_nil_of_mem hmem
      rcases hlast : ((((fileLines content).map parseRow).filterMap
          rowTriple).filter (fun u => decide (u.1 = t.1))).getLast? with _ | u
      · exact absurd (List.getLast?_eq_none_iff.1 hlast) hne
      · rw [hlast]
        simp

/-- Witness for `db_rows_and_append_only`: the row appended for the
strategy `"A"` on an empty file. -/
theorem db_rows_and_append_only_witness :
    write_strategy_to_db [] xStrategy ashlockKind =
      some ([] ++ rowOfFields (dbName xStrategy) ashlockKind
        (md5hex "x".data) ++ ['\n']) :=
  db_rows_and_append_only.1 [] xStrategy ashlockKind (md5hex "x".data) rfl

/-! ## Regeneration updates the db (C1) -/

/-- C1 (amended): in the strategies loop, a missing or changed cache
entry makes the block append the row `(name, kind, fresh hash)`, after
which reading the file yields the mapping with the fresh hash under
`(name, kind)`; the `obtain_transitive_fingerprint` and
`obtain_transitive_fingerprint_v_short` calls happen with that strategy
for their kinds, but the `"Ashlock"` block performs no fingerprint
computation (its obtain call is commented out).  In the fortran loop the
write and the obtain call use the leftover `strategy` variable of the
first loop, not the current player (last conjunct). -/
theorem regen_updates_db (db : Db) (s leftover : Strategy)
    (sig lsig psig pname : List Char) (st : MainState)
    (tt tr vt vr : Nat) (ls : List (List Char)) (d : Db)
    (hsig : hash_strategy s = some sig)
    (hon : s.original_name = none)
    (hfile : st.file = linesJoin ls)
    (hls : ∀ x ∈ ls, '\n' ∉ x)
    (hd : read_db st.file = .ok d)
    (hname : csvSafe s.name) :
    (stale db s.name ashlockKind sig = true →
      ashlockStep db s sig st =
        some ⟨st.file ++ rowOfFields s.name ashlockKind sig ++ ['\n'],
          st.events⟩ ∧
      read_db (st.file ++ rowOfFields s.name ashlockKind sig ++ ['\n']) =
        .ok (dbInsert d (s.name, ashlockKind) sig) ∧
      dbLookup (dbInsert d (s.name, ashlockKind) sig)
        (s.name, ashlockKind) = some sig) ∧
    (stale db s.name transitiveKind sig = true →
      transitiveStep db tt tr s sig st =
        some ⟨st.file ++ rowOfFields s.name transitiveKind sig ++ ['\n'],
          st.events ++ [.obtainTransitive s tt tr]⟩ ∧
      read_db (st.file ++ rowOfFields s.name transitiveKind sig ++ ['\n']) =
        .ok (dbInsert d (s.name, transitiveKind) sig) ∧
      dbLookup (dbInsert d (s.name, transitiveKind) sig)
        (s.name, transitiveKind) = some sig) ∧
    (stale db s.name transitiveVShortKind sig = true →
      transitiveVShortStep db vt vr s sig st =
        some ⟨st.file ++ rowOfFields s.name transitiveVShortKind sig ++ ['\n'],
          st.events ++ [.obtainTransitiveVShort s vt vr]⟩ ∧
      read_db (st.file ++ rowOfFields s.name transitiveVShortKind sig ++
          ['\n']) =
        .ok (dbInsert d (s.name, transitiveVShortKind) sig) ∧
      dbLookup (dbInsert d (s.name, transitiveVShortKind) sig)
        (s.name, transitiveVShortKind) = some sig) ∧
    (stale db pname transitiveKind psig = true →
      hash_strategy leftover = some lsig →
      fortranTransitiveStep db tt tr leftover pname psig st =
        some ⟨st.file ++ rowOfFields (dbName leftover) transitiveKind lsig ++
            ['\n'],
          st.events ++ [.obtainTransitive leftover tt tr]⟩) := by
  have hdbn : dbName s = s.name := by simp [dbName, hon]
  have hnsig : '\n' ∉ sig := newline_not_mem_hash hsig
  have hcsig : ',' ∉ sig := comma_not_mem_hash hsig
  have hd' : read_db (linesJoin ls) = .ok d := hfile ▸ hd
  have core : ∀ (k : List Char) (evs : List Event), ',' ∉ k → '\n' ∉ k →
      stale db s.name k sig = true →
      ((if stale db s.name k sig = true then
          (write_strategy_to_db st.file s k).map (fun f => MainState.mk f evs)
        else some st) =
        some ⟨st.file ++ rowOfFields s.name k sig ++ ['\n'], evs⟩) ∧
      read_db (st.file ++ rowOfFields s.name k sig ++ ['\n']) =
        .ok (dbInsert d (s.name, k) sig) ∧
      dbLookup (dbInsert d (s.name, k) sig) (s.name, k) = some sig := by
    intro k evs hck hnk hstale
    refine ⟨?_, ?_, ?_⟩
    · rw [if_pos hstale, write_strategy_to_db_eq hsig, hdbn]
      rfl
    · rw [hfile]
      exact read_db_append_row hls hd' hname.2.1 hnk hnsig hname.1 hck hcsig
    · rw [dbLookup_dbInsert]
      simp
  refine ⟨?_, ?_, ?_, ?_⟩
  · intro hstale
    exact core ashlockKind st.events (by decide) (by decide) hstale
  · intro hstale
    exact core transitiveKind (st.events ++ [.obtainTransitive s tt tr])
      (by decide) (by decide) hstale
  · intro hstale
    exact core transitiveVShortKind
      (st.events ++ [.obtainTransitiveVShort s vt vr])
      (by decide) (by decide) hstale
  · intro hstale hlsig
    show (if stale db pname transitiveKind psig = true then
        (write_strategy_to_db st.file leftover transitiveKind).map
          (fun f => MainState.mk f
            (st.events ++ [.obtainTransitive leftover tt tr]))
      else some st) = _
    rw [if_pos hstale, write_strategy_to_db_eq hlsig]
    rfl

/-- Witness for `regen_updates_db`: on the empty db and empty file, the
Ashlock block writes the row for the strategy `"A"` and the re-read
mapping holds its fresh hash. -/
theorem regen_updates_db_witness :
    ashlockStep [] xStrategy (md5hex "x".data) st0 =
      some ⟨st0.file ++ rowOfFields xStrategy.name ashlockKind
          (md5hex "x".data) ++ ['\n'], st0.events⟩ ∧
    read_db (st0.file ++ rowOfFields xStrategy.name ashlockKind
        (md5hex "x".data) ++ ['\n']) =
      .ok (dbInsert [] (xStrategy.name, ashlockKind) (md5hex "x".data)) ∧
    dbLookup (dbInsert [] (xStrategy.name, ashlockKind) (md5hex "x".data))
      (xStrategy.name, ashlockKind) = some (md5hex "x".data) :=
  (regen_updates_db [] xStrategy xStrategy (md5hex "x".data)
    (md5hex "x".data) (md5hex "x".data) "A".data st0 0 0 0 0 [] []
    rfl rfl rfl (fun x hx => absurd hx (List.not_mem_nil x)) rfl
    (by decide)).1 rfl

/-- Counterexample to C1 as stated: with no cache entry for
`("A", "Ashlock")`, the Ashlock block does append the row, but no
fingerprint recomputation happens for that kind — the list of
`obtain_*` calls recorded by the block is empty, because the
`obtain_fingerprint` call is commented out in the source. -/
theorem ashlock_no_recompute_counterexample :
    stale ([] : Db) xStrategy.name ashlockKind
      ((hash_strategy xStrategy).getD []) = true ∧
    (ashlockStep [] xStrategy ((hash_strategy xStrategy).getD []) st0).isSome
      = true ∧
    (ashlockStep [] xStrategy ((hash_strategy xStrategy).getD []) st0).map
      MainState.events = some [] :=
  ⟨rfl, rfl, rfl⟩

end UpdateFingerprints
